import Mathlib

/-!
Shallow embedding of the curation engine of `scripts/update-news.mjs`
(the later revision of the script: exponential recency decay with a
72-hour hard cutoff, sentinel score `-9999`, post-hoc filter `score > -100`).

Modelling conventions:
* JS strings are Lean `String` (in this toolchain a wrapper around `List Char`);
  the character-level regex replacements of the script are modelled as
  character-list transformations.
* Timestamps are rationals counting milliseconds since the epoch.  An item's
  `publishedAt` is `Option ℚ`: `none` models a missing or unparseable date
  (both fall back to the current time in the script, giving age 0).
* JS float arithmetic is modelled exactly over `ℝ` (`Math.exp` is `Real.exp`).
* `Array.prototype.sort` with comparator `(a, b) => b.score - a.score` is a
  stable descending sort by score (ECMAScript guarantees sort stability);
  it is modelled by `List.mergeSort` with `le a b := b.score ≤ a.score`.
* The ISO `"YYYY-MM-DD"` date rendered by `formatDate` is modelled at the same
  granularity by the epoch day number `⌊ms / 86400000⌋`; the template string
  `"{date}-{idx+1}"` for `id` is modelled by the pair of its two components.
* `process.exit(code)` is modelled by returning the exit code.
-/

namespace NewsApp

/-- Constant `MAX_ITEMS_PER_FEED` of the script. -/
def MAX_ITEMS_PER_FEED : Nat := 20

/-- Constant `TOP_N` of the script. -/
def TOP_N : Nat := 10

/-- Constant `MAX_PER_SOURCE` of the script. -/
def MAX_PER_SOURCE : Nat := 2

/-- Characters matched by the regex class `\s` (the common ASCII ones). -/
def isSpaceChar (c : Char) : Bool :=
  c = ' ' || c = '\t' || c = '\n' || c = '\r' || c = '\x0b' || c = '\x0c'

/-- Characters of the regex class `[-|•·]` in `normalizeTitle`. -/
def sepChar (c : Char) : Bool :=
  c = '-' || c = '|' || c = '•' || c = '·'

/-- Does the regex `\s*[-|•·]` match at the start of the given character list? -/
def sepMatchAt : List Char → Bool
  | [] => false
  | c :: cs => sepChar c || (isSpaceChar c && sepMatchAt cs)

/-- Model of `.replace(/\s*[-|•·].*$/, '')`: truncate at the leftmost position
where optional whitespace followed by a separator character begins. -/
def dropSep : List Char → List Char
  | [] => []
  | c :: cs => if sepMatchAt (c :: cs) then [] else c :: dropSep cs

/-- Lowercase ASCII letters and digits: the class `[a-z0-9]`. -/
def isAlnumLower (c : Char) : Bool :=
  (97 ≤ c.toNat && c.toNat ≤ 122) || (48 ≤ c.toNat && c.toNat ≤ 57)

/-- Model of one step of `.replace(/[^a-z0-9\s]/g, ' ')`. -/
def replaceNonAlnum (c : Char) : Char :=
  if isAlnumLower c || isSpaceChar c then c else ' '

/-- Walk for `.replace(/\s+/g, ' ')`: `inRun` records whether the current
position is inside a whitespace run whose single replacement space was
already emitted. -/
def collapseWsAux : Bool → List Char → List Char
  | _, [] => []
  | inRun, c :: cs =>
    if isSpaceChar c then
      if inRun then collapseWsAux true cs else ' ' :: collapseWsAux true cs
    else c :: collapseWsAux false cs

/-- Model of `.replace(/\s+/g, ' ')`: collapse every whitespace run to one space. -/
def collapseWs (l : List Char) : List Char :=
  collapseWsAux false l

/-- Model of `.trim()`: drop whitespace from both ends. -/
def trimChars (l : List Char) : List Char :=
  (((l.dropWhile isSpaceChar).reverse.dropWhile isSpaceChar)).reverse

/-- The `normalizeTitle` function of the script: lowercase, cut the trailing
separator-delimited suffix, replace non-alphanumerics by spaces, collapse
whitespace, trim. -/
def normalizeTitle (title : String) : String :=
  String.mk (trimChars (collapseWs
    ((dropSep ((title.data.map Char.toLower))).map replaceNonAlnum)))

/-- Model of `url.replace(/\?.*$/, '')` used in `dedupe`: truncate at the
first question mark. -/
def stripQuery (url : String) : String :=
  String.mk (url.data.takeWhile (fun c => c ≠ '?'))

/-- Characters of the regex class `\w` (used for `\b` word boundaries). -/
def isWordChar (c : Char) : Bool :=
  (65 ≤ c.toNat && c.toNat ≤ 90) || (97 ≤ c.toNat && c.toNat ≤ 122) ||
    (48 ≤ c.toNat && c.toNat ≤ 57) || c = '_'

/-- A `\b` boundary is fine next to the end of the string or a non-word char. -/
def boundaryOk : Option Char → Bool
  | none => true
  | some c => !(isWordChar c)

/-- Does `kw` occur at the start of `l` with a word boundary right after it? -/
def matchesAt (kw l : List Char) : Bool :=
  kw.isPrefixOf l && boundaryOk (l.drop kw.length).head?

/-- Does `kw` occur somewhere in the list with `\b` boundaries on both sides?
`prev` is the character just before the current position (`none` at the start). -/
def hasKeyword (kw : List Char) : Option Char → List Char → Bool
  | _, [] => false
  | prev, c :: cs =>
    (boundaryOk prev && matchesAt kw (c :: cs)) || hasKeyword kw (some c) cs

/-- Case-insensitive `\bkw\b` regex test on a title, modelled by lowercasing
both sides and scanning for a boundary-delimited occurrence. -/
def testWord (kw : String) (title : String) : Bool :=
  hasKeyword (kw.data.map Char.toLower) none (title.data.map Char.toLower)

/-- The keyword alternatives of `FINANCE_NOISE_PATTERNS`:
`\bstock(s)?\b`, `\bnasdaq\b`, `\byahoo finance\b`, `\bbuy\b`,
`\bmillionaire\b`, `\bwall street\b`, `\bprice target\b`, each `/i`. -/
def financeNoiseTest (title : String) : Bool :=
  testWord "stock" title || testWord "stocks" title || testWord "nasdaq" title ||
    testWord "yahoo finance" title || testWord "buy" title ||
    testWord "millionaire" title || testWord "wall street" title ||
    testWord "price target" title

/-- The regex `\b(research|policy|model|release|launch|safety|benchmark|open source)\b/i`
of `scoreItem`. -/
def policyResearchTest (title : String) : Bool :=
  testWord "research" title || testWord "policy" title || testWord "model" title ||
    testWord "release" title || testWord "launch" title || testWord "safety" title ||
    testWord "benchmark" title || testWord "open source" title

/-- A raw feed item as produced by `fetchFeed` (the input boundary of the
curation engine).  `publishedAt` is `none` when the date is missing or does
not parse. -/
structure Item where
  source : String
  feedWeight : ℚ
  title : String
  url : String
  summary : String
  publishedAt : Option ℚ

/-- An item together with its computed score (`{...item, score}` in `main`). -/
structure ScoredItem where
  source : String
  feedWeight : ℚ
  title : String
  url : String
  summary : String
  publishedAt : Option ℚ
  score : ℝ

/-- Age in hours used by `scoreItem`: a missing/unparseable date falls back to
`now` (hence age 0), and the age is clamped below by 0. -/
def ageHours (publishedAt : Option ℚ) (now : ℚ) : ℚ :=
  max 0 ((now - publishedAt.getD now) / (1000 * 60 * 60))

/-- The `scoreItem` function of the script, with the clock passed explicitly.
Items older than 72 hours get the sentinel `-9999`; otherwise the score is
`10·exp(-0.05·age) + weight·0.5 + min(len/80, 1) + bonus - penalty`. -/
noncomputable def scoreItem (item : Item) (feedWeight : ℚ) (now : ℚ) : ℝ :=
  let age := ageHours item.publishedAt now
  if 72 < age then -9999
  else
    let recencyScore : ℝ := 10 * Real.exp (-(0.05) * (age : ℝ))
    let weightScore : ℝ := (feedWeight : ℝ) * 0.5
    let titleQuality : ℝ := min ((item.title.length : ℝ) / 80) 1
    let financePenalty : ℝ := if financeNoiseTest item.title then 5 else 0
    let policyResearchBonus : ℝ := if policyResearchTest item.title then 2 else 0
    recencyScore + weightScore + titleQuality + policyResearchBonus - financePenalty

/-- The map `item => ({ ...item, score: scoreItem(item, item.feedWeight) })`. -/
noncomputable def scoreWith (now : ℚ) (item : Item) : ScoredItem :=
  { source := item.source, feedWeight := item.feedWeight, title := item.title,
    url := item.url, summary := item.summary, publishedAt := item.publishedAt,
    score := scoreItem item item.feedWeight now }

/-- Loop of `dedupe`, carrying the `byUrl` and `byTitle` key sets. -/
def dedupeGo (byUrl byTitle : List String) : List ScoredItem → List ScoredItem
  | [] => []
  | item :: rest =>
    let urlKey := stripQuery item.url
    let titleKey := normalizeTitle item.title
    if urlKey = "" ∨ titleKey = "" then dedupeGo byUrl byTitle rest
    else if urlKey ∈ byUrl ∨ titleKey ∈ byTitle then dedupeGo byUrl byTitle rest
    else item :: dedupeGo (urlKey :: byUrl) (titleKey :: byTitle) rest

/-- The `dedupe` function of the script. -/
def dedupe (items : List ScoredItem) : List ScoredItem :=
  dedupeGo [] [] items

/-- Spec-side restatement of the dedup keep-condition, used for the refinement
claim: an item is kept iff both keys are non-empty and absent from the keys of
the previously kept items. -/
def dedupeSpec (kept : List ScoredItem) : List ScoredItem → List ScoredItem
  | [] => []
  | item :: rest =>
    if stripQuery item.url ≠ "" ∧ normalizeTitle item.title ≠ "" ∧
        stripQuery item.url ∉ kept.map (fun k => stripQuery k.url) ∧
        normalizeTitle item.title ∉ kept.map (fun k => normalizeTitle k.title)
    then item :: dedupeSpec (kept ++ [item]) rest
    else dedupeSpec kept rest

/-- Loop of `applySourceDiversity`: `counts` models the `sourceCounts` map and
`kept` the current `out.length`; the `break` after the push is the `[item]`
branch. -/
def diversityGo (counts : String → Nat) (kept : Nat) : List ScoredItem → List ScoredItem
  | [] => []
  | item :: rest =>
    let n := counts item.source
    if MAX_PER_SOURCE ≤ n then diversityGo counts kept rest
    else if TOP_N ≤ kept + 1 then [item]
    else item :: diversityGo (fun s => if s = item.source then n + 1 else counts s) (kept + 1) rest

/-- The `applySourceDiversity` function of the script. -/
def applySourceDiversity (items : List ScoredItem) : List ScoredItem :=
  diversityGo (fun _ => 0) 0 items

/-- Spec-side restatement of the diversity keep-condition: an item is kept
exactly when fewer than `MAX_PER_SOURCE` items of its source and fewer than
`TOP_N` items in total have been kept before it. -/
def diversitySpec (kept : List ScoredItem) : List ScoredItem → List ScoredItem
  | [] => []
  | item :: rest =>
    if (kept.filter (fun k => k.source == item.source)).length < MAX_PER_SOURCE ∧
        kept.length < TOP_N
    then item :: diversitySpec (kept ++ [item]) rest
    else diversitySpec kept rest

/-- The sort `.sort((a, b) => b.score - a.score)` of `main`: a stable
descending sort by score. -/
noncomputable def sortScored (items : List ScoredItem) : List ScoredItem :=
  items.mergeSort (fun a b => decide (b.score ≤ a.score))

/-- The curation pipeline of `main` up to `ranked`: score, filter out deeply
penalized items, sort descending, dedupe, apply source diversity. -/
noncomputable def curate (items : List Item) (now : ℚ) : List ScoredItem :=
  applySourceDiversity (dedupe (sortScored
    ((items.map (scoreWith now)).filter (fun s => decide ((-100 : ℝ) < s.score)))))

/-- Model of `formatDate`: the epoch day number stands in for the rendered
`"YYYY-MM-DD"` slice of the ISO string; an unparseable date falls back to now. -/
def formatDate (dateLike : Option ℚ) (now : ℚ) : Int :=
  ⌊(dateLike.getD now) / 86400000⌋

/-- A final output record of the pipeline; `id` is the pair modelling the
template string `"{date}-{idx+1}"`. -/
structure CuratedItem where
  id : Int × Nat
  title : String
  summary : String
  url : String
  date : Int
  source : String

/-- The map from a ranked item and its index to the output record. -/
def toCurated (now : ℚ) (idx : Nat) (item : ScoredItem) : CuratedItem :=
  { id := (formatDate item.publishedAt now, idx + 1),
    title := item.title,
    summary := if item.summary = "" then item.source ++ " update" else item.summary,
    url := item.url,
    date := formatDate item.publishedAt now,
    source := item.source }

/-- The final `output` list written to `public/news.json`. -/
noncomputable def curateOutput (items : List Item) (now : ℚ) : List CuratedItem :=
  (curate items now).mapIdx (fun idx item => toCurated now idx item)

/-- The exit status of `main`: `1` when the curated list is empty, else `0`. -/
noncomputable def exitCode (items : List Item) (now : ℚ) : Nat :=
  if (curateOutput items now).length = 0 then 1 else 0

/-! ### Basic facts about the scorer -/

theorem ageHours_nonneg (pub : Option ℚ) (now : ℚ) : 0 ≤ ageHours pub now :=
  le_max_left 0 _

theorem scoreItem_of_stale (item : Item) (w now : ℚ)
    (h : 72 < ageHours item.publishedAt now) : scoreItem item w now = -9999 := by
  simp only [scoreItem]
  rw [if_pos h]

theorem scoreItem_of_fresh (item : Item) (w now : ℚ)
    (h : ageHours item.publishedAt now ≤ 72) :
    scoreItem item w now =
      10 * Real.exp (-(0.05) * ((ageHours item.publishedAt now : ℚ) : ℝ)) + (w : ℝ) * 0.5 +
        min ((item.title.length : ℝ) / 80) 1 +
        (if policyResearchTest item.title then (2 : ℝ) else 0) -
        (if financeNoiseTest item.title then (5 : ℝ) else 0) := by
  simp only [scoreItem]
  rw [if_neg (not_lt.mpr h)]

theorem scoreItem_gt_neg100 (item : Item) (w now : ℚ) (hw : (1 : ℚ) ≤ w)
    (h : ageHours item.publishedAt now ≤ 72) : (-100 : ℝ) < scoreItem item w now := by
  rw [scoreItem_of_fresh item w now h]
  have h1 : (0 : ℝ) < Real.exp (-(0.05) * ((ageHours item.publishedAt now : ℚ) : ℝ)) :=
    Real.exp_pos _
  have h2 : (1 : ℝ) ≤ (w : ℝ) := by exact_mod_cast hw
  have h3 : (0 : ℝ) ≤ min ((item.title.length : ℝ) / 80) 1 :=
    le_min (by positivity) (by norm_num)
  have h4 : (0 : ℝ) ≤ (if policyResearchTest item.title then (2 : ℝ) else 0) := by
    split <;> norm_num
  have h5 : (if financeNoiseTest item.title then (5 : ℝ) else 0) ≤ 5 := by
    split <;> norm_num
  linarith

/-- C4: the scoring function is total; for a feed weight in the configured
range `1..4` it returns the sentinel `-9999` exactly when the item's age
exceeds 72 hours, and otherwise a value strictly greater than the filter
threshold `-100`, so the filter `score > -100` removes precisely the
over-age items. -/
theorem claim_scoreItem_total_sentinel (item : Item) (w now : ℚ)
    (hw1 : (1 : ℚ) ≤ w) (_hw4 : w ≤ 4) :
    (scoreItem item w now = -9999 ↔ 72 < ageHours item.publishedAt now) ∧
      ((-100 : ℝ) < scoreItem item w now ↔ ageHours item.publishedAt now ≤ 72) := by
  constructor
  · constructor
    · intro hs
      by_contra hlt
      push_neg at hlt
      have hgt := scoreItem_gt_neg100 item w now hw1 hlt
      rw [hs] at hgt
      norm_num at hgt
    · exact scoreItem_of_stale item w now
  · constructor
    · intro hs
      by_contra h
      push_neg at h
      rw [scoreItem_of_stale item w now h] at hs
      norm_num at hs
    · exact scoreItem_gt_neg100 item w now hw1

theorem claim_scoreItem_total_sentinel_witness :
    (scoreItem ⟨"Feed", 1, "title", "http://a", "", some 0⟩ 1 0 = -9999 ↔
        72 < ageHours (⟨"Feed", 1, "title", "http://a", "", some 0⟩ : Item).publishedAt 0) ∧
      ((-100 : ℝ) < scoreItem ⟨"Feed", 1, "title", "http://a", "", some 0⟩ 1 0 ↔
        ageHours (⟨"Feed", 1, "title", "http://a", "", some 0⟩ : Item).publishedAt 0 ≤ 72) :=
  claim_scoreItem_total_sentinel ⟨"Feed", 1, "title", "http://a", "", some 0⟩ 1 0
    (by norm_num) (by norm_num)

/-- C8: an item whose publish date is missing or unparseable (`none` in the
model) is scored without error as having age 0: it gets the full recency
term `10` and is never excluded by the 72-hour hard cutoff. -/
theorem claim_fail_open_age_zero (item : Item) (w now : ℚ) (h : item.publishedAt = none) :
    ageHours item.publishedAt now = 0 ∧
      ¬ 72 < ageHours item.publishedAt now ∧
      scoreItem item w now =
        10 + (w : ℝ) * 0.5 + min ((item.title.length : ℝ) / 80) 1 +
          (if policyResearchTest item.title then (2 : ℝ) else 0) -
          (if financeNoiseTest item.title then (5 : ℝ) else 0) := by
  have h0 : ageHours item.publishedAt now = 0 := by
    rw [h]
    simp [ageHours]
  refine ⟨h0, by rw [h0]; norm_num, ?_⟩
  rw [scoreItem_of_fresh item w now (by rw [h0]; norm_num), h0]
  norm_num

theorem claim_fail_open_age_zero_witness :
    ageHours (⟨"Feed", 2, "title", "http://a", "", none⟩ : Item).publishedAt 500 = 0 ∧
      ¬ 72 < ageHours (⟨"Feed", 2, "title", "http://a", "", none⟩ : Item).publishedAt 500 ∧
      scoreItem ⟨"Feed", 2, "title", "http://a", "", none⟩ 2 500 =
        10 + ((2 : ℚ) : ℝ) * 0.5 + min (((("title" : String)).length : ℝ) / 80) 1 +
          (if policyResearchTest "title" then (2 : ℝ) else 0) -
          (if financeNoiseTest "title" then (5 : ℝ) else 0) :=
  claim_fail_open_age_zero ⟨"Feed", 2, "title", "http://a", "", none⟩ 2 500 rfl

/-- C7 counterexample: for items beyond the 72-hour cutoff the claim fails:
an item matching both keyword lists and an otherwise identical item matching
neither both receive the sentinel score `-9999`, so the first score is not
strictly lower. -/
theorem claim_keyword_penalty_counterexample :
    financeNoiseTest ("stock research" : String) = true ∧
      policyResearchTest ("stock research" : String) = true ∧
      financeNoiseTest ("abcdefghijklmn" : String) = false ∧
      policyResearchTest ("abcdefghijklmn" : String) = false ∧
      ("stock research" : String).length = ("abcdefghijklmn" : String).length ∧
      ¬ scoreItem ⟨"A", 3, "stock research", "u1", "", some 0⟩ 3 288000000 <
          scoreItem ⟨"B", 3, "abcdefghijklmn", "u2", "", some 0⟩ 3 288000000 := by
  have hage : ageHours (some (0 : ℚ)) 288000000 = 80 := by
    simp [ageHours]
    norm_num
  have h1 : scoreItem ⟨"A", 3, "stock research", "u1", "", some 0⟩ 3 288000000 = -9999 :=
    scoreItem_of_stale _ 3 288000000 (by rw [hage]; norm_num)
  have h2 : scoreItem ⟨"B", 3, "abcdefghijklmn", "u2", "", some 0⟩ 3 288000000 = -9999 :=
    scoreItem_of_stale _ 3 288000000 (by rw [hage]; norm_num)
  refine ⟨by decide, by decide, by decide, by decide, by decide, ?_⟩
  rw [h1, h2]
  exact lt_irrefl _

/-- C7 as amended: for items within the 72-hour cutoff, the fixed noise
penalty (5) strictly outweighs the fixed topic bonus (2): an item whose title
matches both lists scores strictly lower than an item of the same age, weight
and title length matching neither. -/
theorem claim_keyword_penalty_dominates (it1 it2 : Item) (w now : ℚ)
    (hage : ageHours it1.publishedAt now = ageHours it2.publishedAt now)
    (hcut : ageHours it1.publishedAt now ≤ 72)
    (hlen : it1.title.length = it2.title.length)
    (hf1 : financeNoiseTest it1.title = true) (hp1 : policyResearchTest it1.title = true)
    (hf2 : financeNoiseTest it2.title = false) (hp2 : policyResearchTest it2.title = false) :
    scoreItem it1 w now < scoreItem it2 w now := by
  rw [scoreItem_of_fresh it1 w now hcut, scoreItem_of_fresh it2 w now (hage ▸ hcut),
    hage, hlen, hf1, hp1, hf2, hp2]
  norm_num
  linarith

theorem claim_keyword_penalty_dominates_witness :
    scoreItem ⟨"A", 3, "stock research", "u1", "", some 0⟩ 3 0 <
      scoreItem ⟨"B", 3, "abcdefghijklmn", "u2", "", some 0⟩ 3 0 :=
  claim_keyword_penalty_dominates
    ⟨"A", 3, "stock research", "u1", "", some 0⟩
    ⟨"B", 3, "abcdefghijklmn", "u2", "", some 0⟩ 3 0 rfl
    (by simp [ageHours]) (by decide) (by decide) (by decide) (by decide) (by decide)

/-! ### Structural facts about the pipeline stages -/

theorem dedupeGo_sublist (l : List ScoredItem) : ∀ u t, List.Sublist (dedupeGo u t l) l := by
  induction l with
  | nil => intro u t; simp [dedupeGo]
  | cons item rest ih =>
    intro u t
    simp only [dedupeGo]
    split
    · exact (ih u t).cons item
    · split
      · exact (ih u t).cons item
      · exact (ih _ _).cons₂ item

theorem diversityGo_sublist (l : List ScoredItem) : ∀ counts kept, List.Sublist (diversityGo counts kept l) l := by
  induction l with
  | nil => intro counts kept; simp [diversityGo]
  | cons item rest ih =>
    intro counts kept
    simp only [diversityGo]
    split
    · exact (ih _ _).cons item
    · split
      · exact (List.nil_sublist rest).cons₂ item
      · exact (ih _ _).cons₂ item

/-- C1: an item whose age exceeds the 72-hour hard cutoff never appears in the
curated (ranked) output of the pipeline, regardless of its other signals. -/
theorem claim_hard_cutoff_excluded (items : List Item) (now : ℚ) (it : Item)
    (h : 72 < ageHours it.publishedAt now) :
    scoreWith now it ∉ curate items now := by
  intro hmem
  simp only [curate, applySourceDiversity, dedupe] at hmem
  have h1 := (diversityGo_sublist _ _ _).subset hmem
  have h2 := (dedupeGo_sublist _ _ _).subset h1
  rw [sortScored, List.mem_mergeSort, List.mem_filter] at h2
  have h3 := of_decide_eq_true h2.2
  rw [show (scoreWith now it).score = scoreItem it it.feedWeight now from rfl,
    scoreItem_of_stale it it.feedWeight now h] at h3
  norm_num at h3

theorem claim_hard_cutoff_excluded_witness :
    scoreWith 360000000 ⟨"Feed", 1, "title", "http://a", "", some 0⟩ ∉
      curate [⟨"Feed", 1, "title", "http://a", "", some 0⟩] 360000000 :=
  claim_hard_cutoff_excluded [⟨"Feed", 1, "title", "http://a", "", some 0⟩] 360000000
    ⟨"Feed", 1, "title", "http://a", "", some 0⟩ (by simp [ageHours]; norm_num)

theorem dedupeGo_keys (l : List ScoredItem) : ∀ u t a, a ∈ dedupeGo u t l →
    stripQuery a.url ∉ u ∧ normalizeTitle a.title ∉ t ∧
      stripQuery a.url ≠ "" ∧ normalizeTitle a.title ≠ "" := by
  induction l with
  | nil => intro u t a h; simp [dedupeGo] at h
  | cons item rest ih =>
    intro u t a h
    simp only [dedupeGo] at h
    split at h
    · exact ih u t a h
    · split at h
      · exact ih u t a h
      · rename_i hempty hmem
        push_neg at hempty hmem
        rcases List.mem_cons.mp h with rfl | h'
        · exact ⟨hmem.1, hmem.2, hempty.1, hempty.2⟩
        · have hk := ih _ _ a h'
          exact ⟨fun hu => hk.1 (List.mem_cons_of_mem _ hu),
            fun ht => hk.2.1 (List.mem_cons_of_mem _ ht), hk.2.2⟩

theorem dedupeGo_pairwise (l : List ScoredItem) : ∀ u t,
    (dedupeGo u t l).Pairwise (fun a b =>
      stripQuery a.url ≠ stripQuery b.url ∧ normalizeTitle a.title ≠ normalizeTitle b.title) := by
  induction l with
  | nil => intro u t; simp [dedupeGo]
  | cons item rest ih =>
    intro u t
    simp only [dedupeGo]
    split
    · exact ih u t
    · split
      · exact ih u t
      · refine List.pairwise_cons.mpr ⟨?_, ih _ _⟩
        intro b hb
        have hk := dedupeGo_keys rest _ _ b hb
        constructor
        · intro he
          exact hk.1 (by rw [← he]; exact List.mem_cons_self _ _)
        · intro he
          exact hk.2.1 (by rw [← he]; exact List.mem_cons_self _ _)

theorem dedupeGo_eq_spec (l : List ScoredItem) : ∀ u t kept,
    (∀ k, k ∈ u ↔ k ∈ kept.map (fun x => stripQuery x.url)) →
    (∀ k, k ∈ t ↔ k ∈ kept.map (fun x => normalizeTitle x.title)) →
    dedupeGo u t l = dedupeSpec kept l := by
  induction l with
  | nil => intro u t kept hu ht; simp [dedupeGo, dedupeSpec]
  | cons item rest ih =>
    intro u t kept hu ht
    simp only [dedupeGo, dedupeSpec]
    by_cases h1 : stripQuery item.url = "" ∨ normalizeTitle item.title = ""
    · rw [if_pos h1, if_neg (by tauto), ih u t kept hu ht]
    · by_cases h2 : stripQuery item.url ∈ u ∨ normalizeTitle item.title ∈ t
      · rw [if_neg h1, if_pos h2, if_neg, ih u t kept hu ht]
        rcases h2 with h2 | h2
        · exact fun hc => hc.2.2.1 ((hu _).mp h2)
        · exact fun hc => hc.2.2.2 ((ht _).mp h2)
      · push_neg at h1 h2
        rw [if_neg (by tauto), if_neg (by tauto), if_pos
          ⟨h1.1, h1.2, fun hm => h2.1 ((hu _).mpr hm), fun hm => h2.2 ((ht _).mpr hm)⟩]
        congr 1
        refine ih _ _ (kept ++ [item]) ?_ ?_
        · intro k
          simp only [List.mem_cons, hu k, List.map_append, List.mem_append,
            List.map_cons, List.map_nil, List.mem_singleton, List.not_mem_nil, or_false]
          tauto
        · intro k
          simp only [List.mem_cons, ht k, List.map_append, List.mem_append,
            List.map_cons, List.map_nil, List.mem_singleton, List.not_mem_nil, or_false]
          tauto

/-- C2: the dedup stage keeps an item iff its query-stripped URL key and its
normalized-title key are both non-empty and absent from the keys of
previously kept items (the `dedupeSpec` restatement); its output is a
subsequence of the input, no two output items share a URL key or a title key,
and every output item has non-empty keys. -/
theorem claim_dedupe_characterization (l : List ScoredItem) :
    dedupe l = dedupeSpec [] l ∧
      List.Sublist (dedupe l) l ∧
      (dedupe l).Pairwise (fun a b =>
        stripQuery a.url ≠ stripQuery b.url ∧
          normalizeTitle a.title ≠ normalizeTitle b.title) ∧
      ∀ a ∈ dedupe l, stripQuery a.url ≠ "" ∧ normalizeTitle a.title ≠ "" := by
  refine ⟨dedupeGo_eq_spec l [] [] [] (by simp) (by simp), dedupeGo_sublist l [] [],
    dedupeGo_pairwise l [] [], fun a ha => (dedupeGo_keys l [] [] a ha).2.2⟩

theorem claim_dedupe_characterization_witness :
    dedupe [⟨"A", 1, "Model X - a", "http://a?x", "", some 0, 5⟩] =
        dedupeSpec [] [⟨"A", 1, "Model X - a", "http://a?x", "", some 0, 5⟩] ∧
      List.Sublist (dedupe [⟨"A", 1, "Model X - a", "http://a?x", "", some 0, 5⟩])
        [⟨"A", 1, "Model X - a", "http://a?x", "", some 0, 5⟩] ∧
      (dedupe [⟨"A", 1, "Model X - a", "http://a?x", "", some 0, 5⟩]).Pairwise (fun a b =>
        stripQuery a.url ≠ stripQuery b.url ∧
          normalizeTitle a.title ≠ normalizeTitle b.title) ∧
      ∀ a ∈ dedupe [⟨"A", 1, "Model X - a", "http://a?x", "", some 0, 5⟩],
        stripQuery a.url ≠ "" ∧ normalizeTitle a.title ≠ "" :=
  claim_dedupe_characterization [⟨"A", 1, "Model X - a", "http://a?x", "", some 0, 5⟩]

theorem diversityGo_count (src : String) (l : List ScoredItem) : ∀ counts kept,
    ((diversityGo counts kept l).filter (fun x => x.source == src)).length ≤
      MAX_PER_SOURCE - counts src := by
  induction l with
  | nil => intro counts kept; simp [diversityGo]
  | cons item rest ih =>
    intro counts kept
    simp only [diversityGo]
    split
    · exact ih counts kept
    · rename_i hlt
      push_neg at hlt
      split
      · by_cases hsrc : item.source = src
        · subst hsrc
          have hfl := List.length_filter_le (fun x => x.source == item.source) [item]
          simp only [List.length_singleton] at hfl
          omega
        · rw [List.filter_cons, if_neg (by simp [beq_eq_false_iff_ne.mpr hsrc])]
          simp
      · have h2 := ih (fun s => if s = item.source then counts item.source + 1 else counts s)
          (kept + 1)
        by_cases hsrc : item.source = src
        · subst hsrc
          rw [if_pos rfl] at h2
          rw [List.filter_cons, if_pos (by simp), List.length_cons]
          omega
        · rw [if_neg (fun h => hsrc h.symm)] at h2
          rw [List.filter_cons, if_neg (by simp [beq_eq_false_iff_ne.mpr hsrc])]
          exact h2

theorem diversityGo_length (l : List ScoredItem) : ∀ counts kept, kept + 1 ≤ TOP_N →
    (diversityGo counts kept l).length + kept ≤ TOP_N := by
  induction l with
  | nil => intro counts kept h; simp [diversityGo]; omega
  | cons item rest ih =>
    intro counts kept h
    simp only [diversityGo]
    split
    · exact ih counts kept h
    · split
      · rename_i hbreak
        simp only [List.length_cons, List.length_nil]
        omega
      · rename_i hbreak
        push_neg at hbreak
        have h2 := ih (fun s => if s = item.source then counts item.source + 1 else counts s)
          (kept + 1) (by omega)
        simp only [List.length_cons]
        omega

theorem diversitySpec_of_full (l : List ScoredItem) : ∀ prev, TOP_N ≤ prev.length →
    diversitySpec prev l = [] := by
  induction l with
  | nil => intro prev h; simp [diversitySpec]
  | cons item rest ih =>
    intro prev h
    simp only [diversitySpec]
    rw [if_neg (fun hcond => absurd hcond.2 (by omega))]
    exact ih prev h

theorem diversityGo_eq_spec (l : List ScoredItem) : ∀ counts kept prev,
    (∀ s, counts s = (prev.filter (fun k => k.source == s)).length) →
    kept = prev.length → kept + 1 ≤ TOP_N →
    diversityGo counts kept l = diversitySpec prev l := by
  induction l with
  | nil => intro counts kept prev hc hk hlt; simp [diversityGo, diversitySpec]
  | cons item rest ih =>
    intro counts kept prev hc hk hlt
    simp only [diversityGo, diversitySpec]
    by_cases hfull : MAX_PER_SOURCE ≤ counts item.source
    · rw [if_pos hfull, if_neg, ih counts kept prev hc hk hlt]
      rw [hc item.source] at hfull
      omega
    · rw [if_neg hfull]
      push_neg at hfull
      have hkeep : (prev.filter (fun k => k.source == item.source)).length < MAX_PER_SOURCE ∧
          prev.length < TOP_N := by
        rw [← hc item.source]
        omega
      rw [if_pos hkeep]
      by_cases hbreak : TOP_N ≤ kept + 1
      · rw [if_pos hbreak]
        rw [diversitySpec_of_full rest (prev ++ [item]) (by simp; omega)]
      · rw [if_neg hbreak]
        congr 1
        refine ih _ _ (prev ++ [item]) ?_ (by simp [hk]) (by omega)
        intro s
        by_cases hs : s = item.source
        · subst hs
          rw [if_pos rfl, List.filter_append, List.length_append, hc item.source]
          simp
        · rw [if_neg hs, List.filter_append, List.length_append, hc s]
          have hf : (item.source == s) = false := beq_eq_false_iff_ne.mpr (fun h => hs h.symm)
          simp [List.filter_cons, hf]

/-- C3: the source-diversity limiter returns a subsequence of its input in
which every source appears at most `MAX_PER_SOURCE = 2` times and whose length
is at most `TOP_N = 10` and at most the input length; it keeps an item exactly
when fewer than 2 items of the same source and fewer than 10 items in total
have been kept before it (the `diversitySpec` restatement). -/
theorem claim_diversity_characterization (l : List ScoredItem) :
    applySourceDiversity l = diversitySpec [] l ∧
      List.Sublist (applySourceDiversity l) l ∧
      (∀ src, ((applySourceDiversity l).filter (fun x => x.source == src)).length ≤
        MAX_PER_SOURCE) ∧
      (applySourceDiversity l).length ≤ TOP_N ∧
      (applySourceDiversity l).length ≤ l.length := by
  refine ⟨diversityGo_eq_spec l _ 0 [] (by intro s; simp) rfl (by norm_num [TOP_N]),
    diversityGo_sublist l _ 0, fun src => ?_, ?_, (diversityGo_sublist l _ 0).length_le⟩
  · have h := diversityGo_count src l (fun _ => 0) 0
    simpa using h
  · have h := diversityGo_length l (fun _ => 0) 0 (by norm_num [TOP_N])
    simpa using h

theorem claim_diversity_characterization_witness :
    applySourceDiversity [⟨"A", 1, "t", "u", "", some 0, 5⟩] =
        diversitySpec [] [⟨"A", 1, "t", "u", "", some 0, 5⟩] ∧
      List.Sublist (applySourceDiversity [⟨"A", 1, "t", "u", "", some 0, 5⟩])
        [⟨"A", 1, "t", "u", "", some 0, 5⟩] ∧
      (∀ src, ((applySourceDiversity [⟨"A", 1, "t", "u", "", some 0, 5⟩]).filter
        (fun x => x.source == src)).length ≤ MAX_PER_SOURCE) ∧
      (applySourceDiversity [⟨"A", 1, "t", "u", "", some 0, 5⟩]).length ≤ TOP_N ∧
      (applySourceDiversity [⟨"A", 1, "t", "u", "", some 0, 5⟩]).length ≤
        ([⟨"A", 1, "t", "u", "", some 0, 5⟩] : List ScoredItem).length :=
  claim_diversity_characterization [⟨"A", 1, "t", "u", "", some 0, 5⟩]

/-- C9: the pipeline signals failure (exit code distinct from 0, namely 1)
exactly when the final curated list is empty; a non-empty curated list —
however short — yields exit code 0. -/
theorem claim_exit_code_iff (items : List Item) (now : ℚ) :
    (exitCode items now ≠ 0 ↔ curateOutput items now = []) ∧
      (curateOutput items now = [] ↔ curate items now = []) := by
  constructor
  · rw [exitCode]
    split
    · rename_i h
      simp only [ne_eq, OfNat.ofNat_ne_one, not_false_eq_true]
      simp only [List.length_eq_zero] at h
      simp [h]
    · rename_i h
      simp only [ne_eq, not_true_eq_false]
      simp only [List.length_eq_zero] at h
      simp [h]
  · rw [curateOutput]
    exact List.mapIdx_eq_nil_iff

/-- C5: the candidate sort is stable with respect to score ties: if the items
at positions `i < j` have equal scores, then they occur in this order in the
sorted sequence (the two-element subsequence survives the sort). -/
theorem claim_sort_stable (l : List ScoredItem) (i j : Nat) (hij : i < j) (hj : j < l.length)
    (heq : (l.get ⟨i, lt_trans hij hj⟩).score = (l.get ⟨j, hj⟩).score) :
    List.Sublist [l.get ⟨i, lt_trans hij hj⟩, l.get ⟨j, hj⟩] (sortScored l) := by
  rw [sortScored]
  apply List.sublist_mergeSort
  · intro a b c hab hbc
    exact decide_eq_true (le_trans (of_decide_eq_true hbc) (of_decide_eq_true hab))
  · intro a b
    rcases le_total b.score a.score with h | h
    · simp [decide_eq_true h]
    · simp [decide_eq_true h]
  · refine List.pairwise_cons.mpr ⟨?_, List.pairwise_singleton _ _⟩
    intro b hb
    rw [List.mem_singleton] at hb
    subst hb
    exact decide_eq_true (le_of_eq heq.symm)
  · have hs := List.map_getElem_sublist
      (by simp [hij] :
        ([⟨i, lt_trans hij hj⟩, ⟨j, hj⟩] : List (Fin l.length)).Pairwise (· < ·))
    simpa using hs

theorem claim_sort_stable_witness :
    List.Sublist
      [([⟨"A", 1, "t1", "u1", "", some 0, 5⟩, ⟨"B", 1, "t2", "u2", "", some 0, 5⟩] :
          List ScoredItem).get ⟨0, by norm_num⟩,
        ([⟨"A", 1, "t1", "u1", "", some 0, 5⟩, ⟨"B", 1, "t2", "u2", "", some 0, 5⟩] :
          List ScoredItem).get ⟨1, by norm_num⟩]
      (sortScored [⟨"A", 1, "t1", "u1", "", some 0, 5⟩, ⟨"B", 1, "t2", "u2", "", some 0, 5⟩]) :=
  claim_sort_stable
    [⟨"A", 1, "t1", "u1", "", some 0, 5⟩, ⟨"B", 1, "t2", "u2", "", some 0, 5⟩]
    0 1 (by norm_num) (by norm_num) rfl

/-- C6 counterexample: the claim fails on the code in two ways.  First, the
spec's example titles do not share a dedup key: an em dash is not one of the
stripped separator characters `[-|•·]`, so `"Model X Launches — OtherSite"`
keeps its suffix.  Second, with a genuinely shared nonempty title key the
lower-scored item can survive while the higher-scored one is dropped: in the
score-ordered list below the higher-scored `c6A` is dropped for its
already-seen stripped URL key (never registering its title key), after which
the lower-scored `c6B` is kept. -/
theorem claim_title_collision_counterexample :
    normalizeTitle "Model X Launches - TechSite" ≠ normalizeTitle "Model X Launches — OtherSite" ∧
      (let c6X : ScoredItem := ⟨"S0", 1, "zzz", "u", "", some 0, 3⟩
       let c6A : ScoredItem := ⟨"TechSite", 1, "Model X Launches - TechSite", "u?track", "", some 0, 2⟩
       let c6B : ScoredItem := ⟨"OtherSite", 1, "Model X Launches | OtherSite", "v", "", some 0, 1⟩
       normalizeTitle c6A.title = normalizeTitle c6B.title ∧
         normalizeTitle c6A.title ≠ "" ∧
         c6A.source ≠ c6B.source ∧
         (c6B.score : ℝ) < c6A.score ∧
         [c6X, c6A, c6B].Pairwise (fun p q => q.score ≤ p.score) ∧
         dedupe [c6X, c6A, c6B] = [c6X, c6B]) := by
  refine ⟨by decide, by decide, by decide, by decide, by norm_num, ?_, rfl⟩
  refine List.pairwise_cons.mpr ⟨?_, List.pairwise_cons.mpr ⟨?_, List.pairwise_singleton _ _⟩⟩
  · intro b hb
    rcases List.mem_cons.mp hb with rfl | hb
    · norm_num
    · rw [List.mem_singleton] at hb
      subst hb
      norm_num
  · intro b hb
    rw [List.mem_singleton] at hb
    subst hb
    norm_num

/-- C6 as amended: if two items share the same normalized title, then at most
one of the two survives the dedup stage — in particular, when the
higher-scored one is kept the lower-scored one is dropped.  (The lower-scored
one may be the survivor when the higher-scored one is dropped for an empty or
already-seen URL key, and the spec's em-dash example titles do not actually
collide.) -/
theorem claim_title_collision_at_most_one (l : List ScoredItem) (a b : ScoredItem)
    (hab : a ≠ b) (ht : normalizeTitle a.title = normalizeTitle b.title) :
    ¬ (a ∈ dedupe l ∧ b ∈ dedupe l) := by
  rintro ⟨ha, hb⟩
  have hp : (dedupe l).Pairwise
      (fun x y => normalizeTitle x.title ≠ normalizeTitle y.title) :=
    (dedupeGo_pairwise l [] []).imp (fun h => h.2)
  have hsym : Symmetric (fun x y : ScoredItem =>
      normalizeTitle x.title ≠ normalizeTitle y.title) :=
    fun x y h he => h he.symm
  exact hp.forall hsym ha hb hab ht

theorem claim_title_collision_at_most_one_witness :
    ¬ ((⟨"TechSite", 3, "Model X Launches - TechSite", "u1", "", some 0, 3⟩ : ScoredItem) ∈
        dedupe [⟨"TechSite", 3, "Model X Launches - TechSite", "u1", "", some 0, 3⟩,
          ⟨"OtherSite", 2, "Model X Launches | OtherSite", "u2", "", some 0, 2⟩] ∧
      (⟨"OtherSite", 2, "Model X Launches | OtherSite", "u2", "", some 0, 2⟩ : ScoredItem) ∈
        dedupe [⟨"TechSite", 3, "Model X Launches - TechSite", "u1", "", some 0, 3⟩,
          ⟨"OtherSite", 2, "Model X Launches | OtherSite", "u2", "", some 0, 2⟩]) :=
  claim_title_collision_at_most_one
    [⟨"TechSite", 3, "Model X Launches - TechSite", "u1", "", some 0, 3⟩,
      ⟨"OtherSite", 2, "Model X Launches | OtherSite", "u2", "", some 0, 2⟩]
    ⟨"TechSite", 3, "Model X Launches - TechSite", "u1", "", some 0, 3⟩
    ⟨"OtherSite", 2, "Model X Launches | OtherSite", "u2", "", some 0, 2⟩
    (fun h => absurd (congrArg ScoredItem.url h) (by decide)) (by decide)

/-! ### Character-level facts for the idempotence of the title normalizer -/

theorem mapFixed {f : Char → Char} (l : List Char) (h : ∀ c ∈ l, f c = c) : l.map f = l := by
  induction l with
  | nil => rfl
  | cons c cs ih =>
    rw [List.map_cons, h c (List.mem_cons_self c cs),
      ih (fun x hx => h x (List.mem_cons_of_mem c hx))]

theorem toLower_fixed (c : Char) (h : isAlnumLower c = true ∨ c = ' ') :
    Char.toLower c = c := by
  have hn : ¬ (c.toNat ≥ 65 ∧ c.toNat ≤ 90) := by
    rcases h with h | rfl
    · simp only [isAlnumLower, Bool.or_eq_true, Bool.and_eq_true, decide_eq_true_eq] at h
      omega
    · decide
  simp only [Char.toLower]
  rw [if_neg hn]

theorem isSpaceChar_of_alnum (c : Char) (h : isAlnumLower c = true) :
    isSpaceChar c = false := by
  by_contra hs
  rw [Bool.not_eq_false] at hs
  simp only [isSpaceChar, Bool.or_eq_true, decide_eq_true_eq] at hs
  rcases hs with ((((rfl | rfl) | rfl) | rfl) | rfl) | rfl <;> exact absurd h (by decide)

theorem sepChar_false (c : Char) (h : isAlnumLower c = true ∨ c = ' ') :
    sepChar c = false := by
  by_contra hs
  rw [Bool.not_eq_false] at hs
  simp only [sepChar, Bool.or_eq_true, decide_eq_true_eq] at hs
  rcases h with h | rfl
  · rcases hs with ((rfl | rfl) | rfl) | rfl <;> exact absurd h (by decide)
  · rcases hs with ((h | h) | h) | h <;> exact absurd h (by decide)

theorem sepMatchAt_false (l : List Char) (h : ∀ c ∈ l, sepChar c = false) :
    sepMatchAt l = false := by
  induction l with
  | nil => rfl
  | cons c cs ih =>
    rw [sepMatchAt, h c (List.mem_cons_self c cs),
      ih (fun x hx => h x (List.mem_cons_of_mem c hx))]
    simp

theorem dropSep_id (l : List Char) (h : ∀ c ∈ l, sepChar c = false) : dropSep l = l := by
  induction l with
  | nil => rfl
  | cons c cs ih =>
    rw [dropSep, if_neg (by simp [sepMatchAt_false (c :: cs) h]),
      ih (fun x hx => h x (List.mem_cons_of_mem c hx))]

theorem replaceNonAlnum_fixed (c : Char) (h : isAlnumLower c = true ∨ c = ' ') :
    replaceNonAlnum c = c := by
  rcases h with h | rfl
  · rw [replaceNonAlnum, if_pos (by simp [h])]
  · decide

theorem replaceNonAlnum_class (d : Char) :
    isAlnumLower (replaceNonAlnum d) = true ∨ isSpaceChar (replaceNonAlnum d) = true := by
  rw [replaceNonAlnum]
  split
  · rename_i h
    rw [Bool.or_eq_true] at h
    exact h
  · right
    decide

theorem collapseWsAux_mem (l : List Char) : ∀ flag c, c ∈ collapseWsAux flag l →
    c = ' ' ∨ (c ∈ l ∧ isSpaceChar c = false) := by
  induction l with
  | nil => intro flag c h; simp [collapseWsAux] at h
  | cons d ds ih =>
    intro flag c h
    simp only [collapseWsAux] at h
    split at h
    · split at h
      · rcases ih true c h with h' | h'
        · exact Or.inl h'
        · exact Or.inr ⟨List.mem_cons_of_mem d h'.1, h'.2⟩
      · rcases List.mem_cons.mp h with rfl | h'
        · exact Or.inl rfl
        · rcases ih true c h' with h'' | h''
          · exact Or.inl h''
          · exact Or.inr ⟨List.mem_cons_of_mem d h''.1, h''.2⟩
    · rename_i hd
      rcases List.mem_cons.mp h with rfl | h'
      · exact Or.inr ⟨List.mem_cons_self c ds, by simpa using hd⟩
      · rcases ih false c h' with h'' | h''
        · exact Or.inl h''
        · exact Or.inr ⟨List.mem_cons_of_mem d h''.1, h''.2⟩

theorem collapseWsAux_true_head (l : List Char) :
    ∀ h ∈ (collapseWsAux true l).head?, isSpaceChar h = false := by
  induction l with
  | nil => intro h hh; simp [collapseWsAux] at hh
  | cons d ds ih =>
    intro h hh
    simp only [collapseWsAux] at hh
    split at hh
    · exact ih h hh
    · rename_i hd
      rw [List.head?_cons, Option.mem_def, Option.some_inj] at hh
      subst hh
      simpa using hd

theorem collapseWsAux_chain (l : List Char) : ∀ flag,
    (collapseWsAux flag l).Chain' (fun a b => isSpaceChar a = false ∨ isSpaceChar b = false) := by
  induction l with
  | nil => intro flag; simp [collapseWsAux]
  | cons d ds ih =>
    intro flag
    simp only [collapseWsAux]
    split
    · split
      · exact ih true
      · refine List.chain'_cons'.mpr ⟨?_, ih true⟩
        intro y hy
        exact Or.inr (collapseWsAux_true_head ds y hy)
    · rename_i hd
      refine List.chain'_cons'.mpr ⟨?_, ih false⟩
      intro y _
      exact Or.inl (by simpa using hd)

theorem collapseWsAux_true_eq_false (l : List Char)
    (h : ∀ c ∈ l.head?, isSpaceChar c = false) :
    collapseWsAux true l = collapseWsAux false l := by
  cases l with
  | nil => rfl
  | cons d ds =>
    have hd : isSpaceChar d = false := h d (by simp)
    simp only [collapseWsAux, hd]
    simp

theorem collapseWsAux_id (l : List Char)
    (hsp : ∀ c ∈ l, isSpaceChar c = true → c = ' ')
    (hch : l.Chain' (fun a b => isSpaceChar a = false ∨ isSpaceChar b = false)) :
    collapseWsAux false l = l := by
  induction l with
  | nil => rfl
  | cons d ds ih =>
    have hch' : ds.Chain' (fun a b => isSpaceChar a = false ∨ isSpaceChar b = false) :=
      (List.chain'_cons'.mp hch).2
    have hsp' : ∀ c ∈ ds, isSpaceChar c = true → c = ' ' :=
      fun c hc => hsp c (List.mem_cons_of_mem d hc)
    by_cases hd : isSpaceChar d = true
    · have hde : d = ' ' := hsp d (List.mem_cons_self d ds) hd
      subst hde
      simp only [collapseWsAux, hd]
      simp only [if_true, Bool.false_eq_true, if_false]
      have hds : ∀ c ∈ ds.head?, isSpaceChar c = false := by
        intro c hc
        have hr := (List.chain'_cons'.mp hch).1 c hc
        rcases hr with h1 | h1
        · exact absurd h1 (by simp [hd])
        · exact h1
      rw [collapseWsAux_true_eq_false ds hds, ih hsp' hch']
    · rw [Bool.not_eq_true] at hd
      simp only [collapseWsAux, hd]
      simp only [Bool.false_eq_true, if_false]
      rw [ih hsp' hch']

theorem dropWhile_head_false (p : Char → Bool) (l : List Char) :
    ∀ h ∈ (l.dropWhile p).head?, p h = false := by
  induction l with
  | nil => intro h hh; simp at hh
  | cons d ds ih =>
    intro h hh
    rw [List.dropWhile_cons] at hh
    split at hh
    · exact ih h hh
    · rename_i hd
      rw [List.head?_cons, Option.mem_def, Option.some_inj] at hh
      subst hh
      simpa using hd

theorem dropWhile_eq_self_of_head (p : Char → Bool) (l : List Char)
    (h : ∀ c ∈ l.head?, p c = false) : l.dropWhile p = l := by
  cases l with
  | nil => rfl
  | cons d ds =>
    rw [List.dropWhile_cons, if_neg (by simp [h d (by simp)])]

theorem getLast?_dropWhile (p : Char → Bool) (l : List Char)
    (h : l.dropWhile p ≠ []) : (l.dropWhile p).getLast? = l.getLast? := by
  obtain ⟨s, hs⟩ := List.dropWhile_suffix (l := l) p
  conv_rhs => rw [← hs]
  rw [List.getLast?_append]
  match hdw : (l.dropWhile p).getLast? with
  | some x => simp
  | none =>
    rw [List.getLast?_eq_none_iff] at hdw
    exact absurd hdw h

theorem trimChars_trim (l : List Char) : trimChars (trimChars l) = trimChars l := by
  by_cases hC : (l.dropWhile isSpaceChar).reverse.dropWhile isSpaceChar = []
  · have ht : trimChars l = [] := by
      rw [trimChars, hC]
      rfl
    rw [ht]
    rfl
  · have hhead : ∀ c ∈ (trimChars l).head?, isSpaceChar c = false := by
      intro c hc
      rw [trimChars, List.head?_reverse, getLast?_dropWhile _ _ hC,
        List.getLast?_reverse] at hc
      exact dropWhile_head_false isSpaceChar l c hc
    have h2 : (trimChars l).reverse = (l.dropWhile isSpaceChar).reverse.dropWhile isSpaceChar := by
      rw [trimChars, List.reverse_reverse]
    rw [trimChars, dropWhile_eq_self_of_head _ _ hhead, h2,
      dropWhile_eq_self_of_head _ _ (dropWhile_head_false isSpaceChar _)]
    rfl

theorem trimChars_subset (l : List Char) : ∀ c ∈ trimChars l, c ∈ l := by
  intro c hc
  rw [trimChars, List.mem_reverse] at hc
  have h1 := (List.dropWhile_sublist isSpaceChar).subset hc
  rw [List.mem_reverse] at h1
  exact (List.dropWhile_sublist isSpaceChar).subset h1

theorem chain'_sp_dropWhile (p : Char → Bool) (l : List Char)
    (h : l.Chain' (fun a b => isSpaceChar a = false ∨ isSpaceChar b = false)) :
    (l.dropWhile p).Chain' (fun a b => isSpaceChar a = false ∨ isSpaceChar b = false) := by
  obtain ⟨s, hs⟩ := List.dropWhile_suffix (l := l) p
  rw [← hs] at h
  exact (List.chain'_append.mp h).2.1

theorem chain'_sp_reverse (l : List Char)
    (h : l.Chain' (fun a b => isSpaceChar a = false ∨ isSpaceChar b = false)) :
    l.reverse.Chain' (fun a b => isSpaceChar a = false ∨ isSpaceChar b = false) :=
  List.chain'_reverse.mpr (h.imp (fun _ _ hab => Or.symm hab))

theorem chain'_sp_trimChars (l : List Char)
    (h : l.Chain' (fun a b => isSpaceChar a = false ∨ isSpaceChar b = false)) :
    (trimChars l).Chain' (fun a b => isSpaceChar a = false ∨ isSpaceChar b = false) := by
  rw [trimChars]
  exact chain'_sp_reverse _ (chain'_sp_dropWhile _ _ (chain'_sp_reverse _
    (chain'_sp_dropWhile _ _ h)))

theorem normalize_chars_fixed (r : List Char)
    (hmem : ∀ c ∈ r, isAlnumLower c = true ∨ c = ' ')
    (hch : r.Chain' (fun a b => isSpaceChar a = false ∨ isSpaceChar b = false))
    (htr : trimChars r = r) :
    trimChars (collapseWs ((dropSep (r.map Char.toLower)).map replaceNonAlnum)) = r := by
  rw [mapFixed r (fun c hc => toLower_fixed c (hmem c hc)),
    dropSep_id r (fun c hc => sepChar_false c (hmem c hc)),
    mapFixed r (fun c hc => replaceNonAlnum_fixed c (hmem c hc))]
  have hsp : ∀ c ∈ r, isSpaceChar c = true → c = ' ' := by
    intro c hc hspc
    rcases hmem c hc with h | rfl
    · exact absurd hspc (by simp [isSpaceChar_of_alnum c h])
    · rfl
  rw [collapseWs, collapseWsAux_id r hsp hch, htr]

/-- C10: the title normalizer is idempotent: renormalizing an already
normalized title leaves it unchanged. -/
theorem claim_normalizeTitle_idempotent (t : String) :
    normalizeTitle (normalizeTitle t) = normalizeTitle t := by
  show String.mk (trimChars (collapseWs ((dropSep (((normalizeTitle t).data.map
      Char.toLower))).map replaceNonAlnum))) = normalizeTitle t
  have hdata : (normalizeTitle t).data =
      trimChars (collapseWs ((dropSep ((t.data.map Char.toLower))).map replaceNonAlnum)) := rfl
  have hmem : ∀ c ∈ (normalizeTitle t).data, isAlnumLower c = true ∨ c = ' ' := by
    intro c hc
    rw [hdata] at hc
    have h1 := trimChars_subset _ c hc
    rw [collapseWs] at h1
    rcases collapseWsAux_mem _ false c h1 with h2 | h2
    · exact Or.inr h2
    · rcases List.mem_map.mp h2.1 with ⟨d, _, rfl⟩
      rcases replaceNonAlnum_class d with h3 | h3
      · exact Or.inl h3
      · exact absurd h3 (by simp [h2.2])
  have hch : (normalizeTitle t).data.Chain'
      (fun a b => isSpaceChar a = false ∨ isSpaceChar b = false) := by
    rw [hdata]
    exact chain'_sp_trimChars _ (collapseWsAux_chain _ false)
  have htr : trimChars (normalizeTitle t).data = (normalizeTitle t).data := by
    rw [hdata]
    exact trimChars_trim _
  rw [normalize_chars_fixed _ hmem hch htr]

end NewsApp
